import Mathlib

/-
Verification development for the dependency-graph tool in `practica2.py`.

The Python source is shallowly embedded below:
* `bfs_build_dependency_graph` (forward graph builder, BFS with depth-indexed
  cycle detection) becomes a fueled loop over an explicit `BfsState`;
* `fetch_dependencies_mock` (fixture source) is embedded over a small JSON
  model, with Python exceptions rendered as `Except MockError`;
* `parse_maven_dependencies` and the version-selection part of
  `fetch_pom_from_remote` are embedded via an executable model of the
  lazy/`[^<]+` regular-expression searches the source performs;
* the Reverse Graph Builder exists only in the specification (it is not in
  the repository source), so it is modelled from the spec, clearly marked.
-/

set_option maxHeartbeats 1000000

namespace Practica2

/-! ## Basic Python-semantics helpers -/

/-- Python substring test: `containsAux p s` is `True` iff `p` occurs as a
contiguous substring of `s` (Python `p in s` on strings). -/
def containsAux (p : List Char) : List Char → Bool
  | [] => p.isEmpty
  | c :: cs => p.isPrefixOf (c :: cs) || containsAux p cs

/-- Python `needle in hay` for strings. -/
def pyIn (needle hay : String) : Bool :=
  containsAux needle.data hay.data

/-- Drop leading whitespace characters. -/
def stripLeftAux : List Char → List Char
  | [] => []
  | c :: cs => if c.isWhitespace then stripLeftAux cs else c :: cs

/-- Python `str.strip()`: surrounding whitespace removed (restricted to the
ASCII whitespace of `Char.isWhitespace`, which covers every character the
fixture contract uses). -/
def pyStrip (s : String) : String :=
  String.mk ((stripLeftAux (stripLeftAux s.data).reverse).reverse)

/-- Python `set.add`: sets are modelled as duplicate-free lists in insertion
order; adding an element already present is a no-op. -/
def insertSet (s : List String) (x : String) : List String :=
  if x ∈ s then s else s ++ [x]

/-- Lookup in the `depth_map` dict. The BFS only ever inserts a key that is
absent, so first-match lookup on the association list is exact. -/
def lookupDepth : List (String × Nat) → String → Option Nat
  | [], _ => none
  | kv :: m, k => if kv.1 = k then some kv.2 else lookupDepth m k

/-! ## Forward Graph Builder (`bfs_build_dependency_graph`) -/

/-- The mutable state of the `while queue:` loop of
`bfs_build_dependency_graph`: the accumulators `nodes`, `edges`, `cycles`,
`filtered_out`, the dict `depth_map`, and the work `queue` of
`(package, depth)` pairs. -/
structure BfsState where
  nodes : List String
  edges : List (String × String)
  cycles : List (List String)
  filtered_out : List String
  depth_map : List (String × Nat)
  queue : List (String × Nat)
  deriving DecidableEq

/-- Body of the `for dep in direct_deps:` loop: filter check, edge append,
back-edge cycle check against `depth_map`, or fresh-node discovery. -/
def processDep (filt : String) (current : String) (currDepth : Nat)
    (st : BfsState) (dep : String) : BfsState :=
  if filt ≠ "" ∧ pyIn filt dep = true then
    { st with filtered_out := insertSet st.filtered_out dep }
  else
    -- the source first appends the edge, then branches on the depth lookup;
    -- the intermediate state (differing from `st` only in `edges`) is
    -- inlined into each branch here
    match lookupDepth st.depth_map dep with
    | some depDepth =>
      if depDepth ≤ currDepth then
        { st with edges := st.edges ++ [(current, dep)],
                  cycles := st.cycles ++ [[current, dep]] }
      else { st with edges := st.edges ++ [(current, dep)] }
    | none =>
      { st with
          edges := st.edges ++ [(current, dep)],
          depth_map := st.depth_map ++ [(dep, currDepth + 1)],
          nodes := insertSet st.nodes dep,
          queue := st.queue ++ [(dep, currDepth + 1)] }

/-- Processing all direct dependencies of one dequeued node. -/
def processNode (filt : String) (current : String) (currDepth : Nat)
    (st : BfsState) (deps : List String) : BfsState :=
  deps.foldl (processDep filt current currDepth) st

/-- The `while queue:` loop, fueled (the Python loop need not terminate for
an arbitrary dependency source; each fuel unit is one dequeue). A resolution
failure (`except Exception`) skips the node and continues with the rest of
the queue. -/
def bfsLoop {ε : Type} (fetch : String → Except ε (List String))
    (filt : String) : Nat → BfsState → BfsState
  | 0, st => st
  | fuel + 1, st =>
    match st.queue with
    | [] => st
    | (current, currDepth) :: rest =>
      let st1 := { st with queue := rest }
      match fetch current with
      | .error _ => bfsLoop fetch filt fuel st1
      | .ok deps => bfsLoop fetch filt fuel (processNode filt current currDepth st1 deps)

/-- Initial state: `depth_map = \x7bstart: 0\x7d`, queue seeded with
`(start, 0)`, and `nodes` already holding the start package. -/
def initState (root : String) : BfsState :=
  ⟨[root], [], [], [], [(root, 0)], [(root, 0)]⟩

/-- The loop's final state for a given root and fuel. -/
def bfsState {ε : Type} (fetch : String → Except ε (List String))
    (filt root : String) (fuel : Nat) : BfsState :=
  bfsLoop fetch filt fuel (initState root)

/-- Deduplication of cycle witnesses by `frozenset(cyc)` (the unordered set
of the witness's members), preserving first occurrences. -/
def dedupCyclesAux : List (List String) → List (Finset String) → List (List String)
  | [], _ => []
  | c :: cs, seen =>
    if c.toFinset ∈ seen then dedupCyclesAux cs seen
    else c :: dedupCyclesAux cs (c.toFinset :: seen)

/-- The `unique_cycles` post-pass of `bfs_build_dependency_graph`. -/
def dedupCycles (cs : List (List String)) : List (List String) :=
  dedupCyclesAux cs []

/-- The dict returned by `bfs_build_dependency_graph`. -/
structure GraphResult where
  nodes : List String
  edges : List (String × String)
  cycles : List (List String)
  filtered_out : List String
  deriving DecidableEq

/-- `bfs_build_dependency_graph(start_package, fetch_deps_func,
filter_substring)`, fueled. -/
def bfs_build_dependency_graph {ε : Type} (fetch : String → Except ε (List String))
    (filt root : String) (fuel : Nat) : GraphResult :=
  let st := bfsState fetch filt root fuel
  ⟨st.nodes, st.edges, dedupCycles st.cycles, st.filtered_out⟩

/-! ## Fixture Source (`fetch_dependencies_mock`) -/

/-- JSON values, as produced by `json.load` (numbers restricted to integers;
the fixture contract only uses strings and arrays of strings). Objects keep
their key/value pairs in document order; Python dict construction collapses
duplicate keys with the last occurrence winning, which `dictLookup` mirrors. -/
inductive Json where
  | null : Json
  | bool : Bool → Json
  | num : Int → Json
  | str : String → Json
  | arr : List Json → Json
  | obj : List (String × Json) → Json

/-- Python dict lookup for a dict built by `json.load`: the last occurrence
of a duplicated key wins. -/
def dictLookup : List (String × Json) → String → Option Json
  | [], _ => none
  | kv :: m, k =>
    match dictLookup m k with
    | some v => some v
    | none => if kv.1 = k then some kv.2 else none

/-- Python truthiness of a JSON-decoded value (`if dep`). -/
def pyTruthy : Json → Bool
  | .null => false
  | .bool b => b
  | .num n => n ≠ 0
  | .str s => s ≠ ""
  | .arr xs => !xs.isEmpty
  | .obj kvs => !kvs.isEmpty

mutual

/-- Python `repr` of a JSON-decoded value (quote-escaping inside string
reprs is elided; the fixture contract only reaches the scalar cases). -/
def pyRepr : Json → String
  | .null => "None"
  | .bool true => "True"
  | .bool false => "False"
  | .num n => toString n
  | .str s => "\x27" ++ s ++ "\x27"
  | .arr xs => "[" ++ String.intercalate ", " (pyReprList xs) ++ "]"
  | .obj kvs => "\x7b" ++ String.intercalate ", " (pyReprObj kvs) ++ "\x7d"

/-- `repr` of the elements of a JSON array, in order. -/
def pyReprList : List Json → List String
  | [] => []
  | j :: js => pyRepr j :: pyReprList js

/-- `repr` of the entries of a JSON object, in order. -/
def pyReprObj : List (String × Json) → List String
  | [] => []
  | (k, v) :: kvs => ("\x27" ++ k ++ "\x27: " ++ pyRepr v) :: pyReprObj kvs

end

/-- Python `str` of a JSON-decoded value. -/
def pyStr : Json → String
  | .str s => s
  | j => pyRepr j

/-- The exceptions `fetch_dependencies_mock` can raise (every raise-path of
the source gets a constructor; distinct `ValueError` messages are kept as
distinct constructors so statements can tell them apart). -/
inductive MockError where
  /-- `FileNotFoundError`: the fixture file does not exist. -/
  | fileNotFound : MockError
  /-- `ValueError` from `json.JSONDecodeError`: undeserializable document. -/
  | jsonDecode : MockError
  /-- `ValueError`: the package is absent from the fixture mapping. -/
  | packageMissing : MockError
  /-- `ValueError`: the entry for the package is not a list. -/
  | depsNotList : MockError
  /-- `TypeError` from `in`/subscript on a non-container document. -/
  | typeError : MockError
  deriving DecidableEq

/-- Python `package_name in repo` for a JSON-decoded `repo` (key membership
for dicts, value membership for lists, substring for strings, `TypeError`
otherwise). -/
def pyMem (repo : Json) (k : String) : Except MockError Bool :=
  match repo with
  | .obj kvs => .ok (kvs.any (fun kv => kv.1 = k))
  | .arr xs =>
    .ok (xs.any (fun j => match j with | .str s => s = k | _ => false))
  | .str s => .ok (containsAux k.data s.data)
  | _ => .error .typeError

/-- Python `repo[package_name]` for a JSON-decoded `repo`: dict lookup, or a
`TypeError` for a string-subscripted list/scalar. -/
def pySubscript (repo : Json) (k : String) : Except MockError Json :=
  match repo with
  | .obj kvs =>
    match dictLookup kvs k with
    | some v => .ok v
    | none => .error .typeError
  | _ => .error .typeError

/-- `fetch_dependencies_mock(mock_file_path, package_name)`. The file system
and `json.load` are abstracted into `fileExists` (does the path name a file)
and `doc` (`none` when the text fails to deserialize). The whole document is
read and validated on every call, exactly as in the source — there is no
construction-time validation. -/
def fetch_dependencies_mock (fileExists : Bool) (doc : Option Json)
    (package : String) : Except MockError (List String) :=
  if !fileExists then .error .fileNotFound
  else
    match doc with
    | none => .error .jsonDecode
    | some repo =>
      match pyMem repo package with
      | .error e => .error e
      | .ok false => .error .packageMissing
      | .ok true =>
        match pySubscript repo package with
        | .error e => .error e
        | .ok deps =>
          match deps with
          | .arr ds => .ok ((ds.filter pyTruthy).map (fun d => pyStrip (pyStr d)))
          | _ => .error .depsNotList

/-! ## Regex model for the tag-scoped extractions

The source uses three regex shapes, all of which this model covers:
`re.search(r'<t>(.*?)</t>', s, ...)` (lazy group, leftmost match, optional
`re.DOTALL` and `re.IGNORECASE`) and `re.findall(r'<t>([^<]+)</t>', s)`.
Because the closing tag starts with `<`, the `[^<]+` group must also end at
the first possible closing tag, so one first-open/first-close scanner with a
per-character admissibility predicate and a nonemptiness flag models all of
them faithfully. -/

/-- Single-character pattern comparison, optionally case-insensitive
(`re.IGNORECASE`). -/
def chEq (ci : Bool) (a b : Char) : Bool :=
  if ci then a.toLower = b.toLower else a = b

/-- Does the literal pattern `pat` match at the head of `s`? -/
def patHead (ci : Bool) : List Char → List Char → Bool
  | [], _ => true
  | _ :: _, [] => false
  | p :: ps, c :: cs => chEq ci p c && patHead ci ps cs

/-- Scan for the group content: consume admissible characters up to the
first occurrence of the closing tag (the lazy-group semantics); return the
content and the remainder after the closing tag. -/
def scanContent (ci : Bool) (closeT : List Char) (allowed : Char → Bool) :
    List Char → Option (List Char × List Char)
  | [] => none
  | c :: cs =>
    if patHead ci closeT (c :: cs) then some ([], (c :: cs).drop closeT.length)
    else if allowed c then
      match scanContent ci closeT allowed cs with
      | some (content, rest) => some (c :: content, rest)
      | none => none
    else none

/-- `re.search` for `openT(group)closeT`: try each start position left to
right; at an opening-tag occurrence, take the lazily-shortest admissible
group ending at the first closing tag. `minOne` demands a nonempty group
(`[^<]+`). Returns the group and the remainder after the match. -/
def searchTag (ci : Bool) (openT closeT : List Char) (allowed : Char → Bool)
    (minOne : Bool) : List Char → Option (List Char × List Char)
  | [] => none
  | c :: cs =>
    if patHead ci openT (c :: cs) then
      match scanContent ci closeT allowed ((c :: cs).drop openT.length) with
      | some (content, rest) =>
        if minOne && content.isEmpty then searchTag ci openT closeT allowed minOne cs
        else some (content, rest)
      | none => searchTag ci openT closeT allowed minOne cs
    else searchTag ci openT closeT allowed minOne cs

/-- `re.findall`: repeated non-overlapping leftmost matches, continuing
after each match's closing tag. Fueled; a fuel of `length + 1` is always
enough since every match consumes at least the closing tag. -/
def findAllTag (ci : Bool) (openT closeT : List Char) (allowed : Char → Bool)
    (minOne : Bool) : Nat → List Char → List (List Char)
  | 0, _ => []
  | fuel + 1, s =>
    match searchTag ci openT closeT allowed minOne s with
    | none => []
    | some (content, rest) => content :: findAllTag ci openT closeT allowed minOne fuel rest

/-- `.` with `re.DOTALL`: any character. -/
def anyChar : Char → Bool := fun _ => true

/-- `.` without `re.DOTALL`: any character except a newline. -/
def notNl : Char → Bool := fun c => c ≠ '\n'

/-- `[^<]`: any character except `<`. -/
def notLt : Char → Bool := fun c => c ≠ '<'

/-! ## Descriptor Parser (`parse_maven_dependencies`) -/

/-- `parse_maven_dependencies(pom_content)`: take the group of the first
`<dependencies>(.*?)</dependencies>` match (DOTALL, IGNORECASE), find all
`<dependency>(.*?)</dependency>` blocks inside it, and for each block with a
nonempty stripped `groupId` and `artifactId` emit `groupId:artifactId`. -/
def parse_maven_dependencies (pom : String) : List String :=
  match searchTag true "<dependencies>".data "</dependencies>".data anyChar false pom.data with
  | none => []
  | some (sec, _) =>
    let blocks := findAllTag true "<dependency>".data "</dependency>".data anyChar false
      (sec.length + 1) sec
    blocks.foldl (fun acc block =>
      let g := (searchTag true "<groupId>".data "</groupId>".data notNl false block).map
        (fun r => pyStrip (String.mk r.1))
      let a := (searchTag true "<artifactId>".data "</artifactId>".data notNl false block).map
        (fun r => pyStrip (String.mk r.1))
      match g, a with
      | some gs, some arts =>
        if gs ≠ "" ∧ arts ≠ "" then acc ++ [gs ++ ":" ++ arts] else acc
      | _, _ => acc) []

/-! ## Registry Source version selection (`fetch_pom_from_remote`) -/

/-- The `<release>([^<]+)</release>` search of `fetch_pom_from_remote`,
stripped, collapsed with Python falsiness: `none` both when the regex does
not match and when the stripped group is empty (`if not version`). -/
def releaseMarker (md : String) : Option String :=
  match searchTag false "<release>".data "</release>".data notLt true md.data with
  | none => none
  | some r => if pyStrip (String.mk r.1) = "" then none else some (pyStrip (String.mk r.1))

/-- The `<latest>([^<]+)</latest>` search, stripped and falsiness-collapsed
like `releaseMarker`. -/
def latestMarker (md : String) : Option String :=
  match searchTag false "<latest>".data "</latest>".data notLt true md.data with
  | none => none
  | some r => if pyStrip (String.mk r.1) = "" then none else some (pyStrip (String.mk r.1))

/-- `re.findall(r'<version>([^<]+)</version>', metadata)`, unstripped. -/
def versionEntries (md : String) : List String :=
  (findAllTag false "<version>".data "</version>".data notLt true
    (md.data.length + 1) md.data).map String.mk

/-- The `versions[-1].strip()` fallback, falsiness-collapsed. -/
def lastVersion (md : String) : Option String :=
  match (versionEntries md).getLast? with
  | none => none
  | some v => if pyStrip v = "" then none else some (pyStrip v)

/-- The failure of the version-selection step of `fetch_pom_from_remote`
(the `RuntimeError` raised when no version can be determined). -/
inductive PomError where
  | malformed : PomError
  deriving DecidableEq

/-- Lines 91–109 of the source: `version = None`; try `<release>`, then (if
still falsy) `<latest>`, then (if still falsy) the last `<version>` entry;
raise if still falsy. -/
def fetch_pom_resolve_version (md : String) : Except PomError String :=
  match releaseMarker md with
  | some v => .ok v
  | none =>
    match latestMarker md with
    | some v => .ok v
    | none =>
      match lastVersion md with
      | some v => .ok v
      | none => .error .malformed

/-! ## Reverse Graph Builder (modelled from the spec) -/

/-- Modelled from the spec: the Reverse Graph Result of §3. The repository
source under `src/` contains no Reverse Graph Builder; only the
specification (§4.5) describes it, so its result record is modelled from
the spec's words: `dependents`, the direct-edge projection `edges`, and the
`filtered` set of the full-universe sweep. -/
structure ReverseGraphResult where
  dependents : List String
  edges : List (String × String)
  filtered : List String
  deriving DecidableEq

/-- One BFS round over the reverse adjacency: fold the neighbours of the
dequeued coordinate into the visited set and the queue, skipping ones seen
before. -/
def reachLoop (adj : String → List String) :
    Nat → List String → List String → List String
  | 0, visited, _ => visited
  | _ + 1, visited, [] => visited
  | fuel + 1, visited, c :: rest =>
    let vq := (adj c).foldl
      (fun (vq : List String × List String) d =>
        if d ∈ vq.1 then vq else (vq.1 ++ [d], vq.2 ++ [d])) (visited, rest)
    reachLoop adj fuel vq.1 vq.2

/-- Modelled from the spec: the Reverse Graph Builder of §4.5, which is
absent from `src/`. Pass 1 sweeps the whole `univ`erse, skipping (and
recording) filter-matching coordinates, skipping filter-matching individual
dependencies, and silently skipping coordinates whose resolution fails,
accumulating all direct edges. Pass 2 inverts the edge set into a reverse
adjacency and breadth-first traverses it from `target`; `dependents` is the
set of reached coordinates with the target itself excluded. Pass 3 projects
the edges whose destination is exactly `target`. -/
def reverse_build {ε : Type} (target : String) (univ : List String)
    (fetch : String → Except ε (List String)) (filt : String) : ReverseGraphResult :=
  let sweep := univ.foldl
    (fun (acc : List (String × String) × List String) c =>
      if filt ≠ "" ∧ pyIn filt c = true then (acc.1, insertSet acc.2 c)
      else
        match fetch c with
        | .error _ => acc
        | .ok deps =>
          (acc.1 ++ (deps.filter (fun d => !(decide (filt ≠ "") && pyIn filt d))).map
            (fun d => (c, d)), acc.2))
    ([], [])
  let allEdges := sweep.1
  let radj := fun d => (allEdges.filter (fun e => e.2 = d)).map (fun e => e.1)
  let visited := reachLoop radj (allEdges.length + 1) [target] [target]
  { dependents := visited.filter (fun c => c ≠ target),
    edges := allEdges.filter (fun e => e.2 = target),
    filtered := sweep.2 }

/-! ## Helper lemmas -/

theorem mem_insertSet {s : List String} {c x : String} :
    c ∈ insertSet s x ↔ c ∈ s ∨ c = x := by
  by_cases h : x ∈ s <;> simp only [insertSet, h, if_true, if_false, List.mem_append,
    List.mem_singleton, ite_true, ite_false]
  exact ⟨Or.inl, fun h2 => h2.elim id (fun e => e ▸ h)⟩

theorem mem_insertSet_self (s : List String) (x : String) : x ∈ insertSet s x :=
  mem_insertSet.mpr (Or.inr rfl)

theorem mem_insertSet_of_mem {s : List String} {c : String} (x : String) (h : c ∈ s) :
    c ∈ insertSet s x :=
  mem_insertSet.mpr (Or.inl h)

theorem lookupDepth_append_of_some {m : List (String × Nat)} {k : String} {v : Nat}
    (l : List (String × Nat)) (h : lookupDepth m k = some v) :
    lookupDepth (m ++ l) k = some v := by
  induction m with
  | nil => simp [lookupDepth] at h
  | cons kv m ih =>
    by_cases hk : kv.1 = k <;> simp only [lookupDepth, hk, if_true, if_false,
      List.cons_append, ite_true, ite_false] at h ⊢
    · exact h
    · exact ih h

theorem lookupDepth_append_self {m : List (String × Nat)} {k : String} (v : Nat)
    (h : lookupDepth m k = none) : lookupDepth (m ++ [(k, v)]) k = some v := by
  induction m with
  | nil => simp [lookupDepth]
  | cons kv m ih =>
    by_cases hk : kv.1 = k <;> simp only [lookupDepth, hk, if_true, if_false,
      List.cons_append, ite_true, ite_false] at h ⊢
    · exact absurd h (by simp)
    · exact ih h

theorem lookupDepth_append_none {m : List (String × Nat)} {k c : String} {v : Nat}
    (h : lookupDepth m c = none) (hne : c ≠ k) :
    lookupDepth (m ++ [(k, v)]) c = none := by
  induction m with
  | nil => simp [lookupDepth, Ne.symm hne]
  | cons kv m ih =>
    by_cases hk : kv.1 = c <;> simp only [lookupDepth, hk, if_true, if_false,
      List.cons_append, ite_true, ite_false] at h ⊢
    · exact absurd h (by simp)
    · exact ih h

theorem lookupDepth_append_elim {m : List (String × Nat)} {k c : String} {v d : Nat}
    (h : lookupDepth (m ++ [(k, v)]) c = some d) :
    lookupDepth m c = some d ∨ (lookupDepth m c = none ∧ c = k ∧ d = v) := by
  induction m with
  | nil =>
    simp only [List.nil_append, lookupDepth] at h
    by_cases hk : k = c <;> simp only [hk, if_true, if_false, ite_true, ite_false] at h
    · cases h
      exact Or.inr ⟨rfl, hk.symm ▸ rfl, rfl⟩
    · cases h
  | cons kv m ih =>
    by_cases hk : kv.1 = c <;> simp only [lookupDepth, hk, if_true, if_false,
      List.cons_append, ite_true, ite_false] at h ⊢
    · exact Or.inl h
    · exact ih h

theorem dedupAux_subset :
    ∀ (cs : List (List String)) (seen : List (Finset String)) (c : List String),
      c ∈ dedupCyclesAux cs seen → c ∈ cs := by
  intro cs
  induction cs with
  | nil => intro seen c h; simp [dedupCyclesAux] at h
  | cons hd tl ih =>
    intro seen c h
    simp only [dedupCyclesAux] at h
    split at h
    · exact List.mem_cons_of_mem _ (ih _ _ h)
    · rcases List.mem_cons.mp h with h1 | h1
      · exact h1 ▸ List.mem_cons_self _ _
      · exact List.mem_cons_of_mem _ (ih _ _ h1)

theorem dedupAux_not_seen :
    ∀ (cs : List (List String)) (seen : List (Finset String)) (c : List String),
      c ∈ dedupCyclesAux cs seen → c.toFinset ∉ seen := by
  intro cs
  induction cs with
  | nil => intro seen c h; simp [dedupCyclesAux] at h
  | cons hd tl ih =>
    intro seen c h
    simp only [dedupCyclesAux] at h
    split at h
    · exact ih _ _ h
    · rename_i hns
      rcases List.mem_cons.mp h with h1 | h1
      · exact h1 ▸ hns
      · exact fun hm => ih _ _ h1 (List.mem_cons_of_mem _ hm)

theorem dedupAux_pairwise :
    ∀ (cs : List (List String)) (seen : List (Finset String)),
      List.Pairwise (fun a b => a.toFinset ≠ b.toFinset) (dedupCyclesAux cs seen) := by
  intro cs
  induction cs with
  | nil => intro seen; simp [dedupCyclesAux]
  | cons hd tl ih =>
    intro seen
    simp only [dedupCyclesAux]
    split
    · exact ih _
    · refine List.Pairwise.cons ?_ (ih _)
      intro b hb
      have := dedupAux_not_seen _ _ _ hb
      intro he
      exact this (he ▸ List.mem_cons_self _ _)

theorem dedupAux_cover :
    ∀ (cs : List (List String)) (seen : List (Finset String)) (c : List String),
      c ∈ cs → c.toFinset ∈ seen ∨
        ∃ c2, c2 ∈ dedupCyclesAux cs seen ∧ c2.toFinset = c.toFinset := by
  intro cs
  induction cs with
  | nil => intro seen c h; cases h
  | cons hd tl ih =>
    intro seen c h
    simp only [dedupCyclesAux]
    rcases List.mem_cons.mp h with h1 | h1
    · subst h1
      split
      · exact Or.inl (by assumption)
      · exact Or.inr ⟨c, List.mem_cons_self _ _, rfl⟩
    · split
      · exact ih _ _ h1
      · rcases ih (hd.toFinset :: seen) c h1 with h2 | ⟨c2, hc2, he⟩
        · rcases List.mem_cons.mp h2 with h3 | h3
          · exact Or.inr ⟨hd, List.mem_cons_self _ _, h3.symm⟩
          · exact Or.inl h3
        · exact Or.inr ⟨c2, List.mem_cons_of_mem _ hc2, he⟩

theorem processDep_depth_some {filt current : String} {currDepth : Nat}
    {st : BfsState} {dep c : String} {v : Nat}
    (h : lookupDepth st.depth_map c = some v) :
    lookupDepth (processDep filt current currDepth st dep).depth_map c = some v := by
  unfold processDep
  split
  · exact h
  · cases hm : lookupDepth st.depth_map dep with
    | none => simp only [hm]; exact lookupDepth_append_of_some _ h
    | some dd => simp only [hm]; split <;> exact h

theorem processDep_nodes_mem {filt current : String} {currDepth : Nat}
    {st : BfsState} {dep c : String} (h : c ∈ st.nodes) :
    c ∈ (processDep filt current currDepth st dep).nodes := by
  unfold processDep
  split
  · exact h
  · cases hm : lookupDepth st.depth_map dep with
    | none => simp only [hm]; exact mem_insertSet_of_mem _ h
    | some dd => simp only [hm]; split <;> exact h

/-- The invariant behind C3's root clause: the root stays in `nodes` and its
depth assignment stays `0`. -/
def RootKept (root : String) (st : BfsState) : Prop :=
  root ∈ st.nodes ∧ lookupDepth st.depth_map root = some 0

theorem rootKept_processDep {filt root current : String} {currDepth : Nat}
    {st : BfsState} {dep : String} (h : RootKept root st) :
    RootKept root (processDep filt current currDepth st dep) :=
  ⟨processDep_nodes_mem h.1, processDep_depth_some h.2⟩

theorem rootKept_processNode {filt root current : String} {currDepth : Nat} :
    ∀ (deps : List String) (st : BfsState), RootKept root st →
      RootKept root (processNode filt current currDepth st deps) := by
  intro deps
  induction deps with
  | nil => intro st h; exact h
  | cons d ds ih =>
    intro st h
    exact ih _ (rootKept_processDep h)

theorem rootKept_loop {ε : Type} {fetch : String → Except ε (List String)}
    {filt root : String} :
    ∀ (fuel : Nat) (st : BfsState), RootKept root st →
      RootKept root (bfsLoop fetch filt fuel st) := by
  intro fuel
  induction fuel with
  | zero => intro st h; exact h
  | succ fuel ih =>
    intro st h
    obtain ⟨n, e, cy, fo, dm, q⟩ := st
    cases q with
    | nil => exact h
    | cons p rest =>
      obtain ⟨current, currDepth⟩ := p
      simp only [bfsLoop]
      cases hf : fetch current with
      | error er => exact ih _ h
      | ok deps => exact ih _ (rootKept_processNode _ _ h)

theorem bfsLoop_error_step {ε : Type} (fetch : String → Except ε (List String))
    (filt : String) (fuel : Nat) (st : BfsState) {current : String}
    {currDepth : Nat} {rest : List (String × Nat)} {er : ε}
    (hq : st.queue = (current, currDepth) :: rest) (hf : fetch current = .error er) :
    bfsLoop fetch filt (fuel + 1) st = bfsLoop fetch filt fuel { st with queue := rest } := by
  obtain ⟨n, e, cy, fo, dm, q⟩ := st
  cases hq
  simp only [bfsLoop, hf]

theorem bfsLoop_ok_step {ε : Type} (fetch : String → Except ε (List String))
    (filt : String) (fuel : Nat) (st : BfsState) {current : String}
    {currDepth : Nat} {rest : List (String × Nat)} {deps : List String}
    (hq : st.queue = (current, currDepth) :: rest) (hf : fetch current = .ok deps) :
    bfsLoop fetch filt (fuel + 1) st =
      bfsLoop fetch filt fuel (processNode filt current currDepth { st with queue := rest } deps) := by
  obtain ⟨n, e, cy, fo, dm, q⟩ := st
  cases hq
  simp only [bfsLoop, hf]

theorem bfsLoop_allError {ε : Type} {fetch : String → Except ε (List String)}
    (filt : String) (hall : ∀ c, ∃ er, fetch c = .error er) :
    ∀ (fuel : Nat) (st : BfsState),
      bfsLoop fetch filt fuel st = { st with queue := st.queue.drop fuel } := by
  intro fuel
  induction fuel with
  | zero => intro st; rfl
  | succ fuel ih =>
    intro st
    obtain ⟨n, e, cy, fo, dm, q⟩ := st
    cases q with
    | nil => simp [bfsLoop]
    | cons p rest =>
      obtain ⟨current, currDepth⟩ := p
      obtain ⟨er, hf⟩ := hall current
      simp only [bfsLoop, hf, List.drop_succ_cons]
      exact ih _

/-- The invariant behind the (amended) filtering law: with a non-empty
filter, a filter-matching coordinate other than the root never acquires a
depth, never enters `nodes`, never appears on an edge, and never appears in
a cycle witness; the root never appears in a cycle witness when it matches
the filter; `filtered_out` only holds filter-matching coordinates. The
depth bookkeeping clauses (`root_depth`, `depth_pos`, `queue_depth`) are
what pushes the cycle clause through the loop. -/
structure NoFilterTouch (filt root : String) (st : BfsState) : Prop where
  root_depth : lookupDepth st.depth_map root = some 0
  depth_pos : ∀ c d, lookupDepth st.depth_map c = some d → c ≠ root → 1 ≤ d
  queue_depth : ∀ p ∈ st.queue, lookupDepth st.depth_map p.1 = some p.2
  untouched : ∀ c, pyIn filt c = true → c ≠ root →
    c ∉ st.nodes ∧ lookupDepth st.depth_map c = none ∧
    (∀ e ∈ st.edges, c ≠ e.1 ∧ c ≠ e.2) ∧ (∀ cyc ∈ st.cycles, c ∉ cyc)
  root_cycles : pyIn filt root = true → ∀ cyc ∈ st.cycles, root ∉ cyc
  filtered_sub : ∀ c ∈ st.filtered_out, pyIn filt c = true

theorem noFilterTouch_processDep {filt root current : String} {currDepth : Nat}
    {st : BfsState} {dep : String} (hfilt : filt ≠ "")
    (hcur : lookupDepth st.depth_map current = some currDepth)
    (h : NoFilterTouch filt root st) :
    NoFilterTouch filt root (processDep filt current currDepth st dep) := by
  unfold processDep
  split
  · rename_i hf
    refine ⟨h.root_depth, h.depth_pos, h.queue_depth, h.untouched, h.root_cycles, ?_⟩
    intro c hcm
    rcases mem_insertSet.mp hcm with h1 | h1
    · exact h.filtered_sub c h1
    · exact h1 ▸ hf.2
  · rename_i hf
    have hdepF : pyIn filt dep = false := by
      cases hb : pyIn filt dep with
      | false => rfl
      | true => exact absurd ⟨hfilt, hb⟩ hf
    have hne_dep : ∀ c, pyIn filt c = true → c ≠ dep := by
      intro c hc he
      rw [he, hdepF] at hc
      cases hc
    have hne_cur : ∀ c, pyIn filt c = true → c ≠ root → c ≠ current := by
      intro c hc hcr he
      have := (h.untouched c hc hcr).2.1
      rw [he, hcur] at this
      cases this
    have hEdges : ∀ c, pyIn filt c = true → c ≠ root →
        ∀ e ∈ st.edges ++ [(current, dep)], c ≠ e.1 ∧ c ≠ e.2 := by
      intro c hc hcr e he
      rcases List.mem_append.mp he with h1 | h1
      · exact (h.untouched c hc hcr).2.2.1 e h1
      · rcases List.mem_singleton.mp h1 with rfl
        exact ⟨hne_cur c hc hcr, hne_dep c hc⟩
    cases hm : lookupDepth st.depth_map dep with
    | some dd =>
      simp only [hm]
      split
      · rename_i hle
        refine ⟨h.root_depth, h.depth_pos, h.queue_depth, ?_, ?_, h.filtered_sub⟩
        · intro c hc hcr
          obtain ⟨hn, hd0, _, hcy⟩ := h.untouched c hc hcr
          refine ⟨hn, hd0, hEdges c hc hcr, ?_⟩
          intro cyc hcycm
          rcases List.mem_append.mp hcycm with h1 | h1
          · exact hcy cyc h1
          · rcases List.mem_singleton.mp h1 with rfl
            simp only [List.mem_cons, List.mem_singleton, List.not_mem_nil]
            rintro (rfl | rfl | h2)
            · exact hne_cur c hc hcr rfl
            · exact hne_dep c hc rfl
            · exact h2
        · intro hroot cyc hcycm
          rcases List.mem_append.mp hcycm with h1 | h1
          · exact h.root_cycles hroot cyc h1
          · rcases List.mem_singleton.mp h1 with rfl
            have hcz : current = root → False := by
              intro he
              rw [he, h.root_depth] at hcur
              cases hcur
              have hdd : dd = 0 := Nat.le_zero.mp hle
              by_cases hdr : dep = root
              · rw [hdr] at hdepF
                rw [hdepF] at hroot
                cases hroot
              · have := h.depth_pos dep dd hm hdr
                omega
            simp only [List.mem_cons, List.mem_singleton, List.not_mem_nil]
            rintro (rfl | rfl | h2)
            · exact hcz rfl
            · rw [hdepF] at hroot; cases hroot
            · exact h2
      · refine ⟨h.root_depth, h.depth_pos, h.queue_depth, ?_, h.root_cycles, h.filtered_sub⟩
        intro c hc hcr
        obtain ⟨hn, hd0, _, hcy⟩ := h.untouched c hc hcr
        exact ⟨hn, hd0, hEdges c hc hcr, hcy⟩
    | none =>
      simp only [hm]
      refine ⟨lookupDepth_append_of_some _ h.root_depth, ?_, ?_, ?_, h.root_cycles,
        h.filtered_sub⟩
      · intro c d hl hcr
        rcases lookupDepth_append_elim hl with h1 | ⟨_, _, rfl⟩
        · exact h.depth_pos c d h1 hcr
        · omega
      · intro p hp
        rcases List.mem_append.mp hp with h1 | h1
        · exact lookupDepth_append_of_some _ (h.queue_depth p h1)
        · rcases List.mem_singleton.mp h1 with rfl
          exact lookupDepth_append_self _ hm
      · intro c hc hcr
        obtain ⟨hn, hd0, _, hcy⟩ := h.untouched c hc hcr
        have hcd : c ≠ dep := hne_dep c hc
        refine ⟨?_, lookupDepth_append_none hd0 hcd, hEdges c hc hcr, hcy⟩
        intro hcm
        rcases mem_insertSet.mp hcm with h1 | h1
        · exact hn h1
        · exact hcd h1

theorem noFilterTouch_processNode {filt root current : String} {currDepth : Nat}
    (hfilt : filt ≠ "") :
    ∀ (deps : List String) (st : BfsState),
      lookupDepth st.depth_map current = some currDepth →
      NoFilterTouch filt root st →
      NoFilterTouch filt root (processNode filt current currDepth st deps) := by
  intro deps
  induction deps with
  | nil => intro st _ h; exact h
  | cons d ds ih =>
    intro st hcur h
    exact ih _ (processDep_depth_some hcur) (noFilterTouch_processDep hfilt hcur h)

theorem noFilterTouch_loop {ε : Type} {fetch : String → Except ε (List String)}
    {filt root : String} (hfilt : filt ≠ "") :
    ∀ (fuel : Nat) (st : BfsState), NoFilterTouch filt root st →
      NoFilterTouch filt root (bfsLoop fetch filt fuel st) := by
  intro fuel
  induction fuel with
  | zero => intro st h; exact h
  | succ fuel ih =>
    intro st h
    have hq := h.queue_depth
    obtain ⟨n, e, cy, fo, dm, q⟩ := st
    cases q with
    | nil => exact h
    | cons p rest =>
      obtain ⟨current, currDepth⟩ := p
      have hrest : NoFilterTouch filt root ⟨n, e, cy, fo, dm, rest⟩ :=
        ⟨h.root_depth, h.depth_pos, fun p hp => h.queue_depth p (List.mem_cons_of_mem _ hp),
         h.untouched, h.root_cycles, h.filtered_sub⟩
      have hcur : lookupDepth dm current = some currDepth :=
        h.queue_depth (current, currDepth) (List.mem_cons_self _ _)
      simp only [bfsLoop]
      cases hf : fetch current with
      | error er => exact ih _ hrest
      | ok deps => exact ih _ (noFilterTouch_processNode hfilt _ _ hcur hrest)

theorem noFilterTouch_init (filt root : String) :
    NoFilterTouch filt root (initState root) := by
  refine ⟨?_, ?_, ?_, ?_, ?_, ?_⟩
  · simp [initState, lookupDepth]
  · intro c d hl hcr
    simp only [initState, lookupDepth] at hl
    split at hl
    · rename_i he; exact absurd he.symm hcr
    · cases hl
  · intro p hp
    simp only [initState, List.mem_singleton] at hp
    subst hp
    simp [lookupDepth]
  · intro c _ hcr
    refine ⟨?_, ?_, ?_, ?_⟩
    · simp [initState, hcr]
    · simp only [initState, lookupDepth]
      split
      · rename_i he; exact absurd he.symm hcr
      · rfl
    · intro e he; cases he
    · intro cyc hc; cases hc
  · intro _ cyc hc; cases hc
  · intro c hc; cases hc

/-! ## Claim theorems -/

/-- C1: for every dequeued node at depth `d` (a node dequeued with a
successful fetch is processed by folding `processDep` over its direct
dependencies) and every non-filtered direct dependency `dep`: if `dep`
already has a depth assignment `d2 ≤ d`, the cycle witness `[node, dep]` is
appended; if `dep` has no depth assignment, it gets depth `d + 1`, joins
`nodes`, and is enqueued; and the returned `cycles` are the raw witnesses
deduplicated by the unordered set of their two endpoints (pairwise distinct
key sets, a subsequence of the raw list, covering every raw key set). -/
theorem c1_step_and_dedup :
    (∀ {ε : Type} (fetch : String → Except ε (List String)) (filt : String) (fuel : Nat)
       (st : BfsState) (current : String) (currDepth : Nat) (rest : List (String × Nat))
       (deps : List String), st.queue = (current, currDepth) :: rest →
       fetch current = .ok deps →
       bfsLoop fetch filt (fuel + 1) st =
         bfsLoop fetch filt fuel (processNode filt current currDepth { st with queue := rest } deps))
    ∧ (∀ (filt node : String) (d : Nat) (st : BfsState) (dep : String),
        ¬(filt ≠ "" ∧ pyIn filt dep = true) →
        (∀ d2, lookupDepth st.depth_map dep = some d2 → d2 ≤ d →
          (processDep filt node d st dep).cycles = st.cycles ++ [[node, dep]])
        ∧ (lookupDepth st.depth_map dep = none →
            lookupDepth (processDep filt node d st dep).depth_map dep = some (d + 1)
            ∧ dep ∈ (processDep filt node d st dep).nodes
            ∧ (processDep filt node d st dep).queue = st.queue ++ [(dep, d + 1)]))
    ∧ (∀ {ε : Type} (fetch : String → Except ε (List String)) (filt root : String) (fuel : Nat),
        (bfs_build_dependency_graph fetch filt root fuel).cycles
          = dedupCycles (bfsState fetch filt root fuel).cycles
        ∧ List.Pairwise (fun a b => a.toFinset ≠ b.toFinset)
            (bfs_build_dependency_graph fetch filt root fuel).cycles
        ∧ (∀ c ∈ (bfs_build_dependency_graph fetch filt root fuel).cycles,
            c ∈ (bfsState fetch filt root fuel).cycles)
        ∧ (∀ c ∈ (bfsState fetch filt root fuel).cycles,
            ∃ c2 ∈ (bfs_build_dependency_graph fetch filt root fuel).cycles,
              c2.toFinset = c.toFinset)) := by
  refine ⟨?_, ?_, ?_⟩
  · intro ε fetch filt fuel st current currDepth rest deps hq hf
    exact bfsLoop_ok_step fetch filt fuel st hq hf
  · intro filt node d st dep hne
    constructor
    · intro d2 hl hle
      unfold processDep
      rw [if_neg hne]
      simp only [hl, if_pos hle]
    · intro hl
      unfold processDep
      rw [if_neg hne]
      simp only [hl]
      exact ⟨lookupDepth_append_self _ hl, mem_insertSet_self _ _, True.intro⟩
  · intro ε fetch filt root fuel
    refine ⟨rfl, dedupAux_pairwise _ _, ?_, ?_⟩
    · intro c hc
      exact dedupAux_subset _ _ _ hc
    · intro c hc
      rcases dedupAux_cover _ [] c hc with h1 | ⟨c2, hm, he⟩
      · cases h1
      · exact ⟨c2, hm, he⟩

/-- C1 witness: concrete instances of the per-dependency branches and the
dequeue equation, with every hypothesis discharged on concrete data. -/
theorem c1_step_and_dedup_witness :
    (processDep "" "B" 1 ⟨["A", "B"], [], [], [], [("A", 0), ("B", 1)], []⟩ "A").cycles
      = [] ++ [["B", "A"]]
    ∧ (lookupDepth (processDep "" "A" 0 (initState "A") "C").depth_map "C" = some (0 + 1)
       ∧ "C" ∈ (processDep "" "A" 0 (initState "A") "C").nodes
       ∧ (processDep "" "A" 0 (initState "A") "C").queue = (initState "A").queue ++ [("C", 0 + 1)])
    ∧ bfsLoop (fetch_dependencies_mock true (some (.obj [("A", .arr [.str "B"])]))) "" (0 + 1)
        (initState "A")
      = bfsLoop (fetch_dependencies_mock true (some (.obj [("A", .arr [.str "B"])]))) "" 0
        (processNode "" "A" 0 { initState "A" with queue := [] } ["B"]) := by
  refine ⟨?_, ?_, ?_⟩
  · exact ((c1_step_and_dedup.2.1 "" "B" 1 _ "A" (by decide)).1 0 (by decide) (by decide))
  · exact ((c1_step_and_dedup.2.1 "" "A" 0 _ "C" (by decide)).2 (by decide))
  · exact c1_step_and_dedup.1 _ "" 0 _ "A" 0 [] ["B"] rfl rfl

/-- C3: for every dependency source (including one failing at the root),
the root is in `nodes` with depth assignment `0`; and a resolution failure
for a dequeued node continues the loop with the remaining queue, leaving
every accumulator untouched. -/
theorem c3_root_and_nonfatal_skip :
    (∀ {ε : Type} (fetch : String → Except ε (List String)) (filt root : String) (fuel : Nat),
      root ∈ (bfs_build_dependency_graph fetch filt root fuel).nodes
      ∧ lookupDepth (bfsState fetch filt root fuel).depth_map root = some 0)
    ∧ (∀ {ε : Type} (fetch : String → Except ε (List String)) (filt : String) (fuel : Nat)
        (st : BfsState) (current : String) (currDepth : Nat) (rest : List (String × Nat))
        (er : ε), st.queue = (current, currDepth) :: rest → fetch current = .error er →
        bfsLoop fetch filt (fuel + 1) st = bfsLoop fetch filt fuel { st with queue := rest }) := by
  constructor
  · intro ε fetch filt root fuel
    have h : RootKept root (bfsState fetch filt root fuel) :=
      rootKept_loop fuel (initState root)
        ⟨List.mem_singleton.mpr rfl, by simp [initState, lookupDepth]⟩
    exact ⟨h.1, h.2⟩
  · intro ε fetch filt fuel st current currDepth rest er hq hf
    exact bfsLoop_error_step fetch filt fuel st hq hf

/-- C3 witness: the error-skip equation applied at a fixture whose document
fails to deserialize, so the root's own resolution raises. -/
theorem c3_root_and_nonfatal_skip_witness :
    bfsLoop (fun c => fetch_dependencies_mock true none c) "" (3 + 1) (initState "A")
      = bfsLoop (fun c => fetch_dependencies_mock true none c) "" 3
        { initState "A" with queue := [] } :=
  c3_root_and_nonfatal_skip.2 _ "" 3 _ "A" 0 [] MockError.jsonDecode rfl rfl

/-- C5 counterexample: a fixture document that fails to deserialize is not
fatal to the traversal — the builder still returns a result (root in
`nodes`, everything else empty) because the per-node `except Exception`
recovers the lookup's failure; the failure is raised per lookup, not at any
construction point. -/
theorem c5_counterexample :
    bfs_build_dependency_graph (fun c => fetch_dependencies_mock true none c) "" "A" 5
      = ⟨["A"], [], [], []⟩
    ∧ fetch_dependencies_mock true none "A" = .error .jsonDecode :=
  ⟨rfl, rfl⟩

/-- C5 amended: the fixture document is read and validated on every lookup
(`fetch_dependencies_mock` takes the document state per call), not once at
construction; with a bad (undeserializable) document every lookup fails
with the decode error, and the forward builder recovers each failure as a
per-node skip, returning the root-only result instead of propagating. -/
theorem c5_lazy_fixture_amended :
    ∀ (filt root : String) (fuel : Nat),
      bfs_build_dependency_graph (fun c => fetch_dependencies_mock true none c) filt root fuel
        = ⟨[root], [], [], []⟩
      ∧ ∀ c, fetch_dependencies_mock true none c = .error .jsonDecode := by
  intro filt root fuel
  constructor
  · have h := @bfsLoop_allError MockError (fun c => fetch_dependencies_mock true none c) filt
      (fun c => ⟨.jsonDecode, rfl⟩) fuel (initState root)
    unfold bfs_build_dependency_graph bfsState
    rw [h]
    rfl
  · intro c
    rfl

/-- C2 counterexample: for root coordinate "X" and filter "X" (the root
contains the filter as a substring), the root is never filtered out — it
stays in `nodes`, `filtered_out` stays empty, and the root even appears as
an edge source — refuting the law's universal quantification over all
encountered coordinates including the root. -/
theorem c2_counterexample :
    pyIn "X" "X" = true
    ∧ bfs_build_dependency_graph
        (fetch_dependencies_mock true (some (.obj [("X", .arr [.str "A"])]))) "X" "X" 10
      = ⟨["X", "A"], [("X", "A")], [], []⟩ :=
  ⟨rfl, rfl⟩

/-- C2 amended: the filtering law holds for every coordinate other than the
root. With a non-empty filter, a filter-matching non-root coordinate is in
neither `nodes` nor any edge endpoint nor any cycle witness; no cycle
witness contains the root either when the root matches the filter; every
member of `filtered_out` matches the filter; and a filter-matching direct
dependency of a processed node is put into `filtered_out` with everything
else untouched. The root itself is exempt: it is placed in `nodes`
unconditionally and can source edges even when it matches the filter. -/
theorem c2_filtering_amended :
    (∀ {ε : Type} (fetch : String → Except ε (List String)) (filt root : String) (fuel : Nat),
      filt ≠ "" →
      (∀ c, pyIn filt c = true → c ≠ root →
        c ∉ (bfs_build_dependency_graph fetch filt root fuel).nodes
        ∧ (∀ e ∈ (bfs_build_dependency_graph fetch filt root fuel).edges, c ≠ e.1 ∧ c ≠ e.2)
        ∧ (∀ cyc ∈ (bfs_build_dependency_graph fetch filt root fuel).cycles, c ∉ cyc))
      ∧ (pyIn filt root = true →
          ∀ cyc ∈ (bfs_build_dependency_graph fetch filt root fuel).cycles, root ∉ cyc)
      ∧ (∀ c ∈ (bfs_build_dependency_graph fetch filt root fuel).filtered_out,
          pyIn filt c = true))
    ∧ (∀ (filt node : String) (d : Nat) (st : BfsState) (dep : String),
        filt ≠ "" → pyIn filt dep = true →
        processDep filt node d st dep
          = { st with filtered_out := insertSet st.filtered_out dep }) := by
  constructor
  · intro ε fetch filt root fuel hfilt
    have hInv : NoFilterTouch filt root (bfsState fetch filt root fuel) :=
      noFilterTouch_loop hfilt fuel (initState root) (noFilterTouch_init filt root)
    refine ⟨?_, ?_, ?_⟩
    · intro c hc hcr
      obtain ⟨hn, _, he, hcy⟩ := hInv.untouched c hc hcr
      refine ⟨hn, he, ?_⟩
      intro cyc hm
      exact hcy cyc (dedupAux_subset _ _ _ hm)
    · intro hroot cyc hm
      exact hInv.root_cycles hroot cyc (dedupAux_subset _ _ _ hm)
    · exact hInv.filtered_sub
  · intro filt node d st dep hfilt hdep
    unfold processDep
    rw [if_pos ⟨hfilt, hdep⟩]

/-- C2 amended witness: the amended law applied at a concrete fixture where
the dependency "XB" matches the filter "X". -/
theorem c2_filtering_amended_witness :
    "XB" ∉ (bfs_build_dependency_graph
        (fetch_dependencies_mock true (some (.obj [("A", .arr [.str "XB", .str "C"])])))
        "X" "A" 10).nodes
    ∧ processDep "X" "A" 0 (initState "A") "XB"
      = { initState "A" with filtered_out := insertSet [] "XB" } :=
  ⟨((c2_filtering_amended.1
      (fetch_dependencies_mock true (some (.obj [("A", .arr [.str "XB", .str "C"])])))
      "X" "A" 10 (by decide)).1 "XB" (by decide) (by decide)).1,
   c2_filtering_amended.2 "X" "A" 0 (initState "A") "XB" (by decide) (by decide)⟩

/-- C4: the Descriptor Parser's own doc string promises to read only
`<dependencies>`, never `<dependencyManagement>`, but the first
`<dependencies>(.*?)</dependencies>` regex match lands inside a
`<dependencyManagement>` block when that block comes first: a dependency
declared exclusively inside `<dependencyManagement>` is returned. -/
theorem c4_dependency_management_leak :
    parse_maven_dependencies
      ("<project><dependencyManagement><dependencies><dependency><groupId>g</groupId>"
        ++ "<artifactId>a</artifactId></dependency></dependencies></dependencyManagement>"
        ++ "</project>")
      = ["g:a"] := by
  decide

/-- C6: the Registry Source's version selection has strict priority — the
release marker (recognized, nonempty once stripped) wins; otherwise the
latest marker; otherwise the stripped last entry of the ordered version
list; and when all three are absent the resolution fails as malformed. -/
theorem c6_version_priority :
    ∀ (md : String),
      (∀ v, releaseMarker md = some v → fetch_pom_resolve_version md = .ok v)
      ∧ (releaseMarker md = none → ∀ v, latestMarker md = some v →
          fetch_pom_resolve_version md = .ok v)
      ∧ (releaseMarker md = none → latestMarker md = none → ∀ v, lastVersion md = some v →
          fetch_pom_resolve_version md = .ok v)
      ∧ (releaseMarker md = none → latestMarker md = none → lastVersion md = none →
          fetch_pom_resolve_version md = .error .malformed) := by
  intro md
  refine ⟨?_, ?_, ?_, ?_⟩
  · intro v h
    unfold fetch_pom_resolve_version
    rw [h]
  · intro h0 v h
    unfold fetch_pom_resolve_version
    rw [h0, h]
  · intro h0 h1 v h
    unfold fetch_pom_resolve_version
    rw [h0, h1, h]
  · intro h0 h1 h2
    unfold fetch_pom_resolve_version
    rw [h0, h1, h2]

/-- C6 witness: each priority rank exercised on concrete metadata,
discharging every hypothesis by evaluation. -/
theorem c6_version_priority_witness :
    fetch_pom_resolve_version "<metadata><release>1.0</release><latest>2.0</latest></metadata>"
      = .ok "1.0"
    ∧ fetch_pom_resolve_version "<metadata><latest>2.0</latest><version>0.1</version></metadata>"
      = .ok "2.0"
    ∧ fetch_pom_resolve_version "<metadata><version>0.1</version><version>0.2</version></metadata>"
      = .ok "0.2"
    ∧ fetch_pom_resolve_version "<metadata><release>  </release></metadata>"
      = .error .malformed :=
  ⟨(c6_version_priority _).1 "1.0" (by decide),
   (c6_version_priority _).2.1 (by decide) "2.0" (by decide),
   (c6_version_priority _).2.2.1 (by decide) (by decide) "0.2" (by decide),
   (c6_version_priority _).2.2.2 (by decide) (by decide) (by decide)⟩

theorem dictLookup_some_any {kvs : List (String × Json)} {k : String} {v : Json}
    (h : dictLookup kvs k = some v) : kvs.any (fun kv => kv.1 = k) = true := by
  induction kvs generalizing v with
  | nil => cases h
  | cons kv m ih =>
    by_cases hk : kv.1 = k
    · simp [List.any_cons, hk]
    · simp only [dictLookup] at h
      cases hm : dictLookup m k with
      | some v2 => simp [List.any_cons, ih hm]
      | none =>
        simp only [hm] at h
        simp [hk] at h

/-- C7: a coordinate absent from the fixture mapping (no key matches) makes
`fetch_dependencies_mock` raise the missing-package `ValueError` — it never
returns a list, in particular never an empty one. -/
theorem c7_missing_is_error :
    ∀ (kvs : List (String × Json)) (package : String),
      kvs.any (fun kv => kv.1 = package) = false →
      fetch_dependencies_mock true (some (.obj kvs)) package = .error .packageMissing
      ∧ ∀ l, fetch_dependencies_mock true (some (.obj kvs)) package ≠ .ok l := by
  intro kvs package h
  have heq : fetch_dependencies_mock true (some (.obj kvs)) package
      = .error .packageMissing := by
    simp [fetch_dependencies_mock, pyMem, h]
  refine ⟨heq, ?_⟩
  intro l hl
  rw [heq] at hl
  cases hl

/-- C7 witness: a concrete mapping without the looked-up key. -/
theorem c7_missing_is_error_witness :
    fetch_dependencies_mock true (some (.obj [("A", .arr [])])) "B"
      = .error .packageMissing :=
  (c7_missing_is_error [("A", .arr [])] "B" (by decide)).1

/-- C8 counterexample: a fixture entry consisting only of whitespace is
truthy before stripping, so it survives the comprehension's filter and is
returned as the empty-string coordinate. -/
theorem c8_counterexample :
    fetch_dependencies_mock true (some (.obj [("A", .arr [.str " "])])) "A" = .ok [""] :=
  rfl

/-- C8 amended: every returned coordinate is the stripped string form of an
entry that was truthy before stripping, and every such entry contributes
its stripped form; entries falsy before stripping (such as the empty
string) are dropped — but a whitespace-only entry is truthy and yields the
empty-string coordinate after stripping. -/
theorem c8_strip_amended :
    ∀ (kvs : List (String × Json)) (package : String) (ds : List Json),
      dictLookup kvs package = some (.arr ds) →
      fetch_dependencies_mock true (some (.obj kvs)) package
        = .ok ((ds.filter pyTruthy).map (fun d => pyStrip (pyStr d)))
      ∧ (∀ s ∈ (ds.filter pyTruthy).map (fun d => pyStrip (pyStr d)),
          ∃ d ∈ ds, pyTruthy d = true ∧ s = pyStrip (pyStr d))
      ∧ (∀ d ∈ ds, pyTruthy d = true →
          pyStrip (pyStr d) ∈ (ds.filter pyTruthy).map (fun d => pyStrip (pyStr d))) := by
  intro kvs package ds h
  have hmem := dictLookup_some_any h
  refine ⟨?_, ?_, ?_⟩
  · simp [fetch_dependencies_mock, pyMem, pySubscript, hmem, h]
  · intro s hs
    rcases List.mem_map.mp hs with ⟨d, hd, he⟩
    exact ⟨d, (List.mem_filter.mp hd).1, (List.mem_filter.mp hd).2, he.symm⟩
  · intro d hd ht
    exact List.mem_map.mpr ⟨d, List.mem_filter.mpr ⟨hd, ht⟩, rfl⟩

/-- C8 amended witness: on entries " x ", "" and " " the source returns
the stripped "x" and the empty string (from the whitespace-only entry),
dropping only the entry that was already empty. -/
theorem c8_strip_amended_witness :
    fetch_dependencies_mock
        true (some (.obj [("A", .arr [.str " x ", .str "", .str " "])])) "A"
      = .ok (([Json.str " x ", Json.str "", Json.str " "].filter pyTruthy).map
          (fun d => pyStrip (pyStr d))) :=
  (c8_strip_amended [("A", .arr [.str " x ", .str "", .str " "])] "A"
    [.str " x ", .str "", .str " "] rfl).1

/-- C9 (the Reverse Graph Builder is modelled from the spec; it is absent
from `src/`): the reverse law on the fixture mapping A maps-to [B],
C maps-to [B] with target "B" and universe [A, B, C] yields dependents
[A, C] and edges [(A,B), (C,B)]; and in general the target is excluded
from `dependents`, self-cycles included. -/
theorem c9_reverse_law :
    reverse_build "B" ["A", "B", "C"]
      (fetch_dependencies_mock true
        (some (.obj [("A", .arr [.str "B"]), ("C", .arr [.str "B"])]))) ""
      = ⟨["A", "C"], [("A", "B"), ("C", "B")], []⟩
    ∧ (∀ {ε : Type} (target : String) (univ : List String)
        (fetch : String → Except ε (List String)) (filt : String),
        target ∉ (reverse_build target univ fetch filt).dependents) := by
  constructor
  · rfl
  · intro ε target univ fetch filt hmem
    have h := List.mem_filter.mp hmem
    simp at h

/-- The fixture mapping of C10. -/
def c10fixture : List (String × Json) :=
  [("A", .arr [.str "B", .str "C"]), ("B", .arr [.str "C"])]

/-- The direct-dependency adjacency a fixture document denotes (what
`fetch_dependencies_mock` answers per coordinate, empty for a missing or
non-list entry). -/
def adjOfDoc (kvs : List (String × Json)) (c : String) : List String :=
  match dictLookup kvs c with
  | some (.arr ds) => (ds.filter pyTruthy).map (fun d => pyStrip (pyStr d))
  | _ => []

/-- Coordinates reachable in exactly `k + 1` adjacency steps. -/
def stepReach (adj : String → List String) : Nat → String → List String
  | 0, c => adj c
  | n + 1, c => (stepReach adj n c).flatMap adj

/-- C10: on the acyclic fixture mapping A maps-to [B, C], B maps-to [C] the
builder returns the non-empty cycles list [[B, C]] — the edge B to C meets
a destination whose depth equals the source's, so a witness is recorded —
although no coordinate of the fixture can reach itself in 1 to 3 steps
(and a directed cycle among its 3 coordinates would need a coordinate that
does). -/
theorem c10_false_cycle_on_acyclic :
    (bfs_build_dependency_graph (fetch_dependencies_mock true (some (.obj c10fixture)))
        "" "A" 10).cycles = [["B", "C"]]
    ∧ (bfs_build_dependency_graph (fetch_dependencies_mock true (some (.obj c10fixture)))
        "" "A" 10).cycles ≠ []
    ∧ (∀ c ∈ ["A", "B", "C"], ∀ k < 3, c ∉ stepReach (adjOfDoc c10fixture) k c) := by
  refine ⟨rfl, by decide, by decide⟩

/-- C10 witness: the acyclicity conjunct applied at the coordinate "B" and
step count 0, with the bounded quantifiers discharged concretely. -/
theorem c10_false_cycle_on_acyclic_witness :
    "B" ∉ stepReach (adjOfDoc c10fixture) 0 "B" :=
  c10_false_cycle_on_acyclic.2.2 "B" (by decide) 0 (by decide)

end Practica2
